import Mathlib

/-!
Budapest itinerary viewer (`src/src/App.js`)

A shallow embedding of the logic of the `BudapestTravelApp` component:

* `parseCSV`   : lines 26-45, the delimited-text parser;
* `days`       : line 47, the distinct day labels (`[...new Set(...)]`);
* `dayFilter`  : lines 93-94, the records shown for the selected day;
* `loadData`   : lines 5-24, the load step over the four `useState` cells.

JavaScript strings are modelled as lists of characters, JavaScript objects
with string values as association lists kept in own-property-key order.
-/

namespace BudapestApp

/-! ## JavaScript strings -/

/-- A JavaScript string, as the sequence of its characters. -/
abbrev JSString := List Char

/-- The separator of `csvData.split('\n')`: U+000A. -/
def newline : Char := Char.ofNat 10

/-- The separator of `rows[i].split(',')`: U+002C. -/
def comma : Char := Char.ofNat 44

/-- The code points `String.prototype.trim` strips: ECMAScript WhiteSpace
(TAB, VT, FF, SP, NBSP, ZWNBSP and the Unicode space separators) and
LineTerminator (LF, CR, LS, PS). -/
def isTrimChar (c : Char) : Bool :=
  let n := c.toNat
  n == 0x09 || n == 0x0A || n == 0x0B || n == 0x0C || n == 0x0D || n == 0x20 ||
  n == 0xA0 || n == 0x1680 || (0x2000 ≤ n && n ≤ 0x200A) ||
  n == 0x2028 || n == 0x2029 || n == 0x202F || n == 0x205F || n == 0x3000 ||
  n == 0xFEFF

/-- The leading half of `trim`. -/
def trimStart (s : JSString) : JSString := s.dropWhile isTrimChar

/-- The trailing half of `trim`. -/
def trimEnd (s : JSString) : JSString := (s.reverse.dropWhile isTrimChar).reverse

/-- The method `String.prototype.trim`. -/
def trim (s : JSString) : JSString := trimEnd (trimStart s)

/-- The method `String.prototype.split(sep)` for a one-character separator: the pieces
between consecutive occurrences of `sep`; the empty string gives one empty
piece. -/
def split (sep : Char) : JSString → List JSString
  | [] => [[]]
  | c :: cs =>
    if c = sep then [] :: split sep cs
    else
      match split sep cs with
      | [] => [[c]]
      | t :: ts => (c :: t) :: ts

/-! ## JavaScript values and objects -/

/-- The values the day label of a record can take: `item.Día` is a string, or
`undefined` when the record has no such property. -/
inductive JSValue where
  | undefined : JSValue
  | str (s : JSString) : JSValue
  deriving DecidableEq

/-- The strict equality `===` on these values. -/
def strictEq : JSValue → JSValue → Bool
  | .undefined, .undefined => true
  | .str a, .str b => decide (a = b)
  | _, _ => false

/-- An ordinary object whose own properties all hold strings, as the list of
its own (key, value) pairs in the order `OrdinaryOwnPropertyKeys` lists them:
array-index keys first, ascending, then the other keys in creation order. -/
abbrev JSObject := List (JSString × JSString)

/-- The key whose assignment goes to the accessor on `Object.prototype`. -/
def protoKey : JSString := "__proto__".toList

/-- The array index a key denotes, when it is the canonical decimal form of an
integer below `2^32 - 1`. -/
def arrayIndex? (k : JSString) : Option Nat :=
  if k = [] then none
  else if k = ['0'] then some 0
  else if k.head? = some '0' then none
  else if k.all Char.isDigit then
    let n := k.foldl (fun a c => 10 * a + (c.toNat - 48)) 0
    if n < 2 ^ 32 - 1 then some n else none
  else none

/-- Own-property lookup. -/
def getOwn : JSObject → JSString → Option JSString
  | [], _ => none
  | (k, v) :: rest, key => if k = key then some v else getOwn rest key

/-- The own property keys, in order (`Object.keys`). -/
def ownKeys (o : JSObject) : List JSString := o.map Prod.fst

/-- Creation of a new array-index property: it is placed after the index
properties with a smaller index. -/
def insertIndexed (n : Nat) (k v : JSString) : JSObject → JSObject
  | [] => [(k, v)]
  | (k', v') :: rest =>
    match arrayIndex? k' with
    | some m =>
      if m < n then (k', v') :: insertIndexed n k v rest
      else (k, v) :: (k', v') :: rest
    | none => (k, v) :: (k', v') :: rest

/-- The assignment `entry[k] = v` with `v` a string, on an object whose
prototype is `Object.prototype`: for `__proto__` the inherited setter ignores a
string and nothing changes; an existing own property is overwritten in place;
otherwise a new own property is created. -/
def setProp (o : JSObject) (k v : JSString) : JSObject :=
  if k = protoKey then o
  else if (ownKeys o).contains k then
    o.map (fun p => if p.1 = k then (p.1, v) else p)
  else
    match arrayIndex? k with
    | some n => insertIndexed n k v o
    | none => o ++ [(k, v)]

/-- The property name `Día` (D, U+00ED, a). -/
def Dia : JSString := ['D', Char.ofNat 0xED, 'a']

/-- The read `item.Día`: the own property when there is one, else `undefined`
(`Object.prototype` has no property of that name). -/
def getDia (item : JSObject) : JSValue :=
  match getOwn item Dia with
  | some v => .str v
  | none => .undefined

/-! ## parseCSV -/

/-- What can be thrown while the model runs. -/
inductive JSError where
  | typeError : JSError
  | rejected (reason : JSString) : JSError
  | outOfFuel : JSError
  deriving DecidableEq

/-- The expression `values[index] ? values[index].trim() : ''`: `undefined`
and the empty string are falsy. -/
def cell (values : List JSString) (index : Nat) : JSString :=
  match values[index]? with
  | some v => if v ≠ [] then trim v else []
  | none => []

/-- The callback loop `headers.forEach((header, index) => ...)` started at
`index` on the entry built so far. -/
def forEachHeader (values : List JSString) :
    List JSString → Nat → JSObject → JSObject
  | [], _, entry => entry
  | header :: rest, index, entry =>
    forEachHeader values rest (index + 1)
      (setProp entry (trim header) (cell values index))

/-- Lines 35-39: the entry built from the header names and the values of one
row. -/
def buildEntry (headers values : List JSString) : JSObject :=
  forEachHeader values headers 0 []

/-- Lines 34-39: the record of one data row. -/
def recordOfRow (headers : List JSString) (row : JSString) : JSObject :=
  buildEntry headers (split comma row)

/-- The loop `for (let i = 1; i < rows.length; i++)` from index `i` on, with
`parsedData` as built so far; `fuel` bounds the number of iterations. -/
def parseLoop (rows headers : List JSString) :
    Nat → Nat → List JSObject → Except JSError (List JSObject)
  | 0, i, parsedData =>
    if i < rows.length then .error .outOfFuel else .ok parsedData
  | fuel + 1, i, parsedData =>
    if i < rows.length then
      match rows[i]? with
      | none => .error .typeError
      | some row =>
        if trim row = [] then parseLoop rows headers fuel (i + 1) parsedData
        else parseLoop rows headers fuel (i + 1) (parsedData ++ [recordOfRow headers row])
    else .ok parsedData

/-- The function `parseCSV`: the array handed to `setItinerary`, or the error
thrown. Reading `rows[0]` of an empty array gives `undefined`, whose `.split`
throws a TypeError. -/
def parseCSV (csvData : JSString) : Except JSError (List JSObject) :=
  let rows := split newline csvData
  match rows[0]? with
  | none => .error .typeError
  | some row0 =>
    let headers := split comma row0
    parseLoop rows headers rows.length 1 []

/-! ## Derived day labels and the day filter -/

/-- The method `Set.prototype.add` on the insertion-ordered element list. -/
def setAdd (s : List JSValue) (x : JSValue) : List JSValue :=
  if x ∈ s then s else s ++ [x]

/-- Line 47: `[...new Set(itinerary.map(item => item.Día))]`. -/
def days (itinerary : List JSObject) : List JSValue :=
  (itinerary.map getDia).foldl setAdd []

/-- Lines 93-94: `itinerary.filter(item => item.Día === activeDay)`. -/
def dayFilter (itinerary : List JSObject) (activeDay : JSValue) : List JSObject :=
  itinerary.filter (fun item => strictEq (getDia item) activeDay)

/-! ## The view state and the load step -/

/-- The four `useState` cells of the component. -/
structure ViewState where
  itinerary : List JSObject
  activeDay : JSValue
  loading : Bool
  error : Option JSString
  deriving DecidableEq

/-- The initial values given to `useState` (lines 5-8). -/
def initialState : ViewState :=
  { itinerary := [], activeDay := .str "Domingo".toList, loading := true, error := none }

/-- The message of `setError` in the catch block. -/
def loadErrorMessage : JSString := "No se pudo cargar el itinerario".toList

/-- The function `loadData` (lines 11-21) applied to the outcome of
`window.fs.readFile`: the try block parses and stores the records, the catch
block stores the message, the finally block clears `loading`. -/
def loadData (outcome : Except JSError JSString) (s : ViewState) : ViewState :=
  let afterTry : ViewState :=
    match outcome >>= parseCSV with
    | .ok parsedData => { s with itinerary := parsedData }
    | .error _ => { s with error := some loadErrorMessage }
  { afterTry with loading := false }

/-! ## Reference notions used to state the properties -/

/-- A line that is empty or consists of whitespace only. -/
def isBlankLine (line : JSString) : Bool := line.all isTrimChar

/-- The lines of a text. -/
def linesOf (text : JSString) : List JSString := split newline text

/-- The header names of a text: the tokens of its first line. -/
def headerTokens (text : JSString) : List JSString :=
  split comma ((linesOf text).headD [])

/-- The non-blank lines after the first line, in order. -/
def dataLines (text : JSString) : List JSString :=
  (linesOf text).tail.filter (fun l => !isBlankLine l)

/-- The pieces joined with a one-character separator
(`Array.prototype.join`). -/
def joinWith (sep : Char) : List JSString → JSString
  | [] => []
  | [a] => a
  | a :: b :: rest => a ++ sep :: joinWith sep (b :: rest)

/-- A row cut down to its first `n` comma-separated values. -/
def truncateRow (n : Nat) (row : JSString) : JSString :=
  joinWith comma ((split comma row).take n)

/-- The value the specification gives field `i` of a row: the trimmed `i`-th
value, the empty string when the row has no `i`-th value. -/
def expectedCell (values : List JSString) (i : Nat) : JSString :=
  match values[i]? with
  | some v => trim v
  | none => []

/-- The stable deduplication of a label sequence: a label is emitted the
first time it is seen and its later occurrences are suppressed. -/
def stableDedup : List JSValue → List JSValue
  | [] => []
  | x :: rest => x :: (stableDedup rest).filter (fun y => decide (y ≠ x))

/-- The day labels of a record sequence, one per record. -/
def dayLabels (itinerary : List JSObject) : List JSValue := itinerary.map getDia

/-- The key list after an assignment to key `k`, computed on keys alone. -/
def insertKeyIndexed (n : Nat) (k : JSString) : List JSString → List JSString
  | [] => [k]
  | k' :: rest =>
    match arrayIndex? k' with
    | some m => if m < n then k' :: insertKeyIndexed n k rest else k :: k' :: rest
    | none => k :: k' :: rest

/-- The key list after `entry[k] = v`, whatever the string `v`. -/
def keysAfterSet (ks : List JSString) (k : JSString) : List JSString :=
  if k = protoKey then ks
  else if ks.contains k then ks
  else
    match arrayIndex? k with
    | some n => insertKeyIndexed n k ks
    | none => ks ++ [k]

end BudapestApp

namespace BudapestApp

/-! ## Strings: `split` and `trim` -/

theorem split_ne_nil (sep : Char) (s : JSString) : split sep s ≠ [] := by
  cases s with
  | nil => simp [split]
  | cons c cs =>
    unfold split
    split_ifs
    · simp
    · cases split sep cs <;> simp

theorem split_of_not_mem (sep : Char) (a : JSString) (h : sep ∉ a) :
    split sep a = [a] := by
  induction a with
  | nil => simp [split]
  | cons c cs ih =>
    have hc : ¬ c = sep := fun e => h (by simp [e])
    have hcs : sep ∉ cs := fun m => h (List.mem_cons_of_mem _ m)
    simp [split, hc, ih hcs]

theorem split_append_sep (sep : Char) (a b : JSString) (h : sep ∉ a) :
    split sep (a ++ sep :: b) = a :: split sep b := by
  induction a with
  | nil => simp [split]
  | cons c cs ih =>
    have hc : ¬ c = sep := fun e => h (by simp [e])
    have hcs : sep ∉ cs := fun m => h (List.mem_cons_of_mem _ m)
    simp [split, hc, ih hcs]

theorem not_mem_of_mem_split (sep : Char) (s t : JSString) (h : t ∈ split sep s) :
    sep ∉ t := by
  induction s generalizing t with
  | nil => simp [split] at h; simp [h]
  | cons c cs ih =>
    unfold split at h
    split_ifs at h with hc
    · rcases List.mem_cons.1 h with h | h
      · simp [h]
      · exact ih t h
    · cases hs : split sep cs with
      | nil => exact absurd hs (split_ne_nil sep cs)
      | cons u us =>
        rw [hs] at h
        simp only [List.mem_cons] at h
        rcases h with h | h
        · subst h
          have hu : sep ∉ u := ih u (by simp [hs])
          intro m
          rcases List.mem_cons.1 m with m | m
          · exact hc m.symm
          · exact hu m
        · exact ih t (by simp [hs, h])

theorem trim_eq_nil_iff (s : JSString) : trim s = [] ↔ isBlankLine s = true := by
  unfold trim trimEnd trimStart isBlankLine
  rw [List.reverse_eq_nil_iff, List.dropWhile_eq_nil_iff, List.all_eq_true]
  constructor
  · intro h
    by_contra hne
    have hd : s.dropWhile isTrimChar ≠ [] := by
      intro e
      exact hne (List.dropWhile_eq_nil_iff.1 e)
    have h1 := List.head_dropWhile_not isTrimChar s hd
    have h2 := h ((s.dropWhile isTrimChar).head hd)
      (List.mem_reverse.2 (List.head_mem hd))
    simp [h2] at h1
  · intro h x hx
    have hx2 : x ∈ s.dropWhile isTrimChar := List.mem_reverse.1 hx
    exact h x ((List.dropWhile_sublist isTrimChar).subset hx2)

/-! ## The parse loop -/

theorem parseLoop_eq (rows headers : List JSString) :
    ∀ (fuel i : Nat) (acc : List JSObject), rows.length - i ≤ fuel →
      parseLoop rows headers fuel i acc =
        .ok (acc ++ ((rows.drop i).filter (fun l => !isBlankLine l)).map
          (recordOfRow headers)) := by
  intro fuel
  induction fuel with
  | zero =>
    intro i acc h
    have hi : ¬ i < rows.length := by omega
    have hd : rows.drop i = [] := List.drop_eq_nil_of_le (by omega)
    simp [parseLoop, hi, hd]
  | succ n ih =>
    intro i acc h
    by_cases hi : i < rows.length
    · have hget : rows[i]? = some rows[i] := List.getElem?_eq_getElem hi
      have hdrop : rows.drop i = rows[i] :: rows.drop (i + 1) :=
        List.drop_eq_getElem_cons hi
      unfold parseLoop
      rw [if_pos hi, hget]
      simp only
      by_cases hb : trim rows[i] = []
      · rw [if_pos hb, ih (i + 1) acc (by omega), hdrop]
        have hb2 : isBlankLine rows[i] = true := (trim_eq_nil_iff _).1 hb
        simp [hb2, -List.getElem_cons_drop]
      · rw [if_neg hb, ih (i + 1) _ (by omega), hdrop]
        have hb2 : isBlankLine rows[i] = false := by
          cases hbl : isBlankLine rows[i] with
          | false => rfl
          | true => exact absurd ((trim_eq_nil_iff _).2 hbl) hb
        simp [hb2, -List.getElem_cons_drop]
    · have hd : rows.drop i = [] := List.drop_eq_nil_of_le (by omega)
      unfold parseLoop
      simp [hi, hd]

theorem parseCSV_eq (text : JSString) :
    parseCSV text = .ok ((dataLines text).map (recordOfRow (headerTokens text))) := by
  unfold parseCSV dataLines headerTokens linesOf
  cases hs : split newline text with
  | nil => exact absurd hs (split_ne_nil _ _)
  | cons row0 rest =>
    simp only [List.getElem?_cons_zero, List.headD_cons, List.tail_cons]
    rw [parseLoop_eq _ _ _ _ _ (by simp)]
    simp

end BudapestApp

namespace BudapestApp

/-! ## Objects: reading a property after assignments -/

theorem getOwn_replace_self (o : JSObject) (k v : JSString) (h : k ∈ ownKeys o) :
    getOwn (o.map (fun p => if p.1 = k then (p.1, v) else p)) k = some v := by
  induction o with
  | nil => simp [ownKeys] at h
  | cons p rest ih =>
    obtain ⟨k', v'⟩ := p
    by_cases hk : k' = k
    · have e : (if (k', v').1 = k then ((k', v').1, v) else (k', v')) = (k', v) := if_pos hk
      rw [List.map_cons, e]
      simp [getOwn, hk]
    · have e : (if (k', v').1 = k then ((k', v').1, v) else (k', v')) = (k', v') := if_neg hk
      have hr : k ∈ ownKeys rest := by
        simp only [ownKeys, List.map_cons, List.mem_cons] at h
        rcases h with h | h
        · exact absurd h.symm hk
        · exact h
      rw [List.map_cons, e]
      simp [getOwn, hk, ih hr]

theorem getOwn_replace_ne (o : JSObject) (k v key : JSString) (h : key ≠ k) :
    getOwn (o.map (fun p => if p.1 = k then (p.1, v) else p)) key = getOwn o key := by
  induction o with
  | nil => rfl
  | cons p rest ih =>
    obtain ⟨k', v'⟩ := p
    by_cases hk : k' = k
    · have e : (if (k', v').1 = k then ((k', v').1, v) else (k', v')) = (k', v) := if_pos hk
      have hk2 : ¬ k' = key := fun e2 => h (e2.symm.trans hk)
      rw [List.map_cons, e]
      simp [getOwn, hk2, ih]
    · have e : (if (k', v').1 = k then ((k', v').1, v) else (k', v')) = (k', v') := if_neg hk
      rw [List.map_cons, e]
      simp [getOwn, ih]

theorem getOwn_insertIndexed_self (n : Nat) (o : JSObject) (k v : JSString)
    (h : k ∉ ownKeys o) : getOwn (insertIndexed n k v o) k = some v := by
  induction o with
  | nil => simp [insertIndexed, getOwn]
  | cons p rest ih =>
    obtain ⟨k', v'⟩ := p
    have hk : ¬ k' = k := fun e => h (by simp [ownKeys, e])
    have hr : k ∉ ownKeys rest := fun m => h (by simp [ownKeys] at m ⊢; exact Or.inr m)
    unfold insertIndexed
    cases arrayIndex? k' with
    | none => simp [getOwn]
    | some m =>
      by_cases hm : m < n
      · simp [hm, getOwn, hk, ih hr]
      · simp [hm, getOwn]

theorem getOwn_insertIndexed_ne (n : Nat) (o : JSObject) (k v key : JSString)
    (h : key ≠ k) : getOwn (insertIndexed n k v o) key = getOwn o key := by
  have hk2 : ¬ k = key := fun e => h e.symm
  induction o with
  | nil => simp [insertIndexed, getOwn, hk2]
  | cons p rest ih =>
    obtain ⟨k', v'⟩ := p
    unfold insertIndexed
    cases arrayIndex? k' with
    | none => simp [getOwn, hk2]
    | some m =>
      by_cases hm : m < n
      · simp [hm, getOwn, ih]
      · simp [hm, getOwn, hk2]

theorem getOwn_append_self (o : JSObject) (k v : JSString) (h : k ∉ ownKeys o) :
    getOwn (o ++ [(k, v)]) k = some v := by
  induction o with
  | nil => simp [getOwn]
  | cons p rest ih =>
    obtain ⟨k', v'⟩ := p
    have hk : ¬ k' = k := fun e => h (by simp [ownKeys, e])
    have hr : k ∉ ownKeys rest := fun m => h (by simp [ownKeys] at m ⊢; exact Or.inr m)
    simp [getOwn, hk, ih hr]

theorem getOwn_append_ne (o : JSObject) (k v key : JSString) (h : key ≠ k) :
    getOwn (o ++ [(k, v)]) key = getOwn o key := by
  have hk2 : ¬ k = key := fun e => h e.symm
  induction o with
  | nil => simp [getOwn, hk2]
  | cons p rest ih =>
    obtain ⟨k', v'⟩ := p
    by_cases hk : k' = key
    · simp [getOwn, hk]
    · simp [getOwn, hk, ih]

theorem getOwn_setProp_self (o : JSObject) (k v : JSString) (hp : k ≠ protoKey) :
    getOwn (setProp o k v) k = some v := by
  unfold setProp
  rw [if_neg hp]
  by_cases hc : (ownKeys o).contains k = true
  · rw [if_pos hc]
    exact getOwn_replace_self o k v (by simpa using hc)
  · rw [if_neg hc]
    have hn : k ∉ ownKeys o := by simpa using hc
    cases arrayIndex? k with
    | none => exact getOwn_append_self o k v hn
    | some n => exact getOwn_insertIndexed_self n o k v hn

theorem getOwn_setProp_ne (o : JSObject) (k v key : JSString) (h : key ≠ k) :
    getOwn (setProp o k v) key = getOwn o key := by
  unfold setProp
  split_ifs
  · rfl
  · exact getOwn_replace_ne o k v key h
  · cases arrayIndex? k with
    | none => exact getOwn_append_ne o k v key h
    | some n => exact getOwn_insertIndexed_ne n o k v key h

theorem getOwn_forEachHeader_of_not_mem (values : List JSString) (key : JSString) :
    ∀ (hs : List JSString) (idx : Nat) (e : JSObject),
      (∀ h ∈ hs, trim h ≠ key) →
      getOwn (forEachHeader values hs idx e) key = getOwn e key := by
  intro hs
  induction hs with
  | nil => intro idx e _; rfl
  | cons h rest ih =>
    intro idx e hne
    unfold forEachHeader
    rw [ih (idx + 1) _ (fun x hx => hne x (List.mem_cons_of_mem _ hx))]
    exact getOwn_setProp_ne e _ _ key (fun e2 => hne h (List.mem_cons_self _ _) e2.symm)

theorem getOwn_forEachHeader (values : List JSString) :
    ∀ (hs : List JSString) (idx : Nat) (e : JSObject) (i : Nat) (hi : i < hs.length),
      trim hs[i] ≠ protoKey →
      (∀ j (hj : j < hs.length), i < j → trim hs[j] ≠ trim hs[i]) →
      getOwn (forEachHeader values hs idx e) (trim hs[i]) = some (cell values (idx + i)) := by
  intro hs
  induction hs with
  | nil => intro idx e i hi; simp at hi
  | cons h rest ih =>
    intro idx e i hi hp hlast
    cases i with
    | zero =>
      simp only [List.getElem_cons_zero] at hp ⊢
      unfold forEachHeader
      rw [getOwn_forEachHeader_of_not_mem values (trim h) rest (idx + 1) _ ?_]
      · simpa using getOwn_setProp_self e (trim h) (cell values idx) hp
      · intro x hx
        obtain ⟨j, hj, rfl⟩ := List.getElem_of_mem hx
        have := hlast (j + 1) (by simpa using hj) (by omega)
        simpa using this
    | succ i =>
      simp only [List.getElem_cons_succ] at hp ⊢
      unfold forEachHeader
      have hi2 : i < rest.length := by simpa using hi
      rw [ih (idx + 1) _ i hi2 hp ?_]
      · congr 2; omega
      · intro j hj hij
        have := hlast (j + 1) (by simpa using hj) (by omega)
        simpa using this

theorem cell_eq_expectedCell (values : List JSString) (i : Nat) :
    cell values i = expectedCell values i := by
  unfold cell expectedCell
  cases hv : values[i]? with
  | none => rfl
  | some v =>
    by_cases hne : v = []
    · subst hne
      simp [trim, trimStart, trimEnd]
    · simp [hne]

end BudapestApp

namespace BudapestApp

/-! ## Objects: the key list does not depend on the values -/

theorem ownKeys_replace (o : JSObject) (k v : JSString) :
    ownKeys (o.map (fun p => if p.1 = k then (p.1, v) else p)) = ownKeys o := by
  induction o with
  | nil => rfl
  | cons p rest ih =>
    obtain ⟨k', v'⟩ := p
    have ih2 : List.map Prod.fst (rest.map (fun p => if p.1 = k then (p.1, v) else p)) =
        List.map Prod.fst rest := ih
    by_cases hk : k' = k
    · have e : (if (k', v').1 = k then ((k', v').1, v) else (k', v')) = (k', v) := if_pos hk
      simp only [ownKeys, List.map_cons, e, ih2]
    · have e : (if (k', v').1 = k then ((k', v').1, v) else (k', v')) = (k', v') := if_neg hk
      simp only [ownKeys, List.map_cons, e, ih2]

theorem ownKeys_insertIndexed (n : Nat) (o : JSObject) (k v : JSString) :
    ownKeys (insertIndexed n k v o) = insertKeyIndexed n k (ownKeys o) := by
  induction o with
  | nil => rfl
  | cons p rest ih =>
    obtain ⟨k', v'⟩ := p
    have ih2 : List.map Prod.fst (insertIndexed n k v rest) =
        insertKeyIndexed n k (List.map Prod.fst rest) := ih
    simp only [ownKeys, List.map_cons, insertIndexed, insertKeyIndexed]
    cases arrayIndex? k' with
    | none => rfl
    | some m =>
      by_cases hm : m < n
      · simp [hm, ih2]
      · simp [hm]

theorem ownKeys_setProp (o : JSObject) (k v : JSString) :
    ownKeys (setProp o k v) = keysAfterSet (ownKeys o) k := by
  unfold setProp keysAfterSet
  split_ifs
  · rfl
  · exact ownKeys_replace o k v
  · cases arrayIndex? k with
    | none => simp [ownKeys]
    | some n => exact ownKeys_insertIndexed n o k v

theorem ownKeys_forEachHeader (values : List JSString) :
    ∀ (hs : List JSString) (idx : Nat) (e : JSObject),
      ownKeys (forEachHeader values hs idx e) =
        hs.foldl (fun ks h => keysAfterSet ks (trim h)) (ownKeys e) := by
  intro hs
  induction hs with
  | nil => intro idx e; rfl
  | cons h rest ih =>
    intro idx e
    unfold forEachHeader
    rw [ih, ownKeys_setProp, List.foldl_cons]

theorem ownKeys_buildEntry_values (headers values values' : List JSString) :
    ownKeys (buildEntry headers values) = ownKeys (buildEntry headers values') := by
  unfold buildEntry
  rw [ownKeys_forEachHeader, ownKeys_forEachHeader]

theorem foldl_keysAfterSet_plain :
    ∀ (names ks : List JSString), (ks ++ names).Nodup → protoKey ∉ names →
      (∀ k ∈ names, arrayIndex? k = none) →
      names.foldl keysAfterSet ks = ks ++ names := by
  intro names
  induction names with
  | nil => intro ks _ _ _; simp
  | cons k rest ih =>
    intro ks hnd hp hidx
    have hk : ¬ k = protoKey := fun e => hp (by simp [e])
    have hnot : k ∉ ks := by
      intro hm
      have := List.nodup_append.1 hnd
      exact this.2.2 hm (List.mem_cons_self _ _)
    have hstep : keysAfterSet ks k = ks ++ [k] := by
      unfold keysAfterSet
      rw [if_neg hk, if_neg (by simpa using hnot), hidx k (List.mem_cons_self _ _)]
    rw [List.foldl_cons, hstep, ih (ks ++ [k]) (by simpa using hnd)
      (fun m => hp (List.mem_cons_of_mem _ m))
      (fun x hx => hidx x (List.mem_cons_of_mem _ hx))]
    simp

theorem ownKeys_buildEntry_plain (headers values : List JSString)
    (hnd : (headers.map trim).Nodup) (hp : protoKey ∉ headers.map trim)
    (hidx : ∀ k ∈ headers.map trim, arrayIndex? k = none) :
    ownKeys (buildEntry headers values) = headers.map trim := by
  unfold buildEntry
  rw [ownKeys_forEachHeader]
  have h := foldl_keysAfterSet_plain (headers.map trim) [] (by simpa using hnd) hp hidx
  rw [List.foldl_map] at h
  simpa [ownKeys] using h

/-! ## Rows with more values than header names -/

theorem forEachHeader_congr (v1 v2 : List JSString) :
    ∀ (hs : List JSString) (idx : Nat) (e : JSObject),
      (∀ j, idx ≤ j → j < idx + hs.length → cell v1 j = cell v2 j) →
      forEachHeader v1 hs idx e = forEachHeader v2 hs idx e := by
  intro hs
  induction hs with
  | nil => intro idx e _; rfl
  | cons h rest ih =>
    intro idx e hc
    unfold forEachHeader
    rw [hc idx (Nat.le_refl _) (by simp), ih (idx + 1) _ ?_]
    intro j h1 h2
    exact hc j (by omega) (by simp only [List.length_cons]; omega)

theorem cell_take (values : List JSString) (n j : Nat) (h : j < n) :
    cell (values.take n) j = cell values j := by
  unfold cell
  rw [List.getElem?_take_of_lt h]

theorem buildEntry_take (headers values : List JSString) :
    buildEntry headers (values.take headers.length) = buildEntry headers values := by
  unfold buildEntry
  apply forEachHeader_congr
  intro j _ h2
  exact cell_take values _ j (by omega)

theorem split_joinWith (sep : Char) :
    ∀ (pieces : List JSString), pieces ≠ [] → (∀ t ∈ pieces, sep ∉ t) →
      split sep (joinWith sep pieces) = pieces := by
  intro pieces
  induction pieces with
  | nil => intro h; exact absurd rfl h
  | cons a rest ih =>
    intro _ hsep
    cases rest with
    | nil => exact split_of_not_mem sep a (hsep a (List.mem_cons_self _ _))
    | cons b rest2 =>
      unfold joinWith
      rw [split_append_sep sep a _ (hsep a (List.mem_cons_self _ _)),
        ih (by simp) (fun t ht => hsep t (List.mem_cons_of_mem _ ht))]

theorem split_truncateRow (n : Nat) (row : JSString) (hn : 0 < n) :
    split comma (truncateRow n row) = (split comma row).take n := by
  unfold truncateRow
  apply split_joinWith
  · cases hs : split comma row with
    | nil => exact absurd hs (split_ne_nil _ _)
    | cons a rest =>
      cases n with
      | zero => omega
      | succ m => simp
  · intro t ht
    exact not_mem_of_mem_split comma row t (List.mem_of_mem_take ht)

theorem linesOf_two (header row : JSString) (hh : newline ∉ header) (hr : newline ∉ row) :
    linesOf (header ++ newline :: row) = [header, row] := by
  unfold linesOf
  rw [split_append_sep newline header row hh, split_of_not_mem newline row hr]


theorem mem_of_mem_split (sep c : Char) :
    ∀ (s t : JSString), t ∈ split sep s → c ∈ t → c ∈ s := by
  intro s
  induction s with
  | nil =>
    intro t ht hc
    simp [split] at ht
    subst ht
    exact hc
  | cons a rest ih =>
    intro t ht hc
    unfold split at ht
    split_ifs at ht with ha
    · rcases List.mem_cons.1 ht with h | h
      · subst h
        simp at hc
      · exact List.mem_cons_of_mem _ (ih t h hc)
    · cases hs : split sep rest with
      | nil => exact absurd hs (split_ne_nil sep rest)
      | cons u us =>
        rw [hs] at ht
        simp only [List.mem_cons] at ht
        rcases ht with h | h
        · subst h
          rcases List.mem_cons.1 hc with h2 | h2
          · subst h2
            exact List.mem_cons_self _ _
          · exact List.mem_cons_of_mem _ (ih u (by simp [hs]) h2)
        · exact List.mem_cons_of_mem _ (ih t (by simp [hs, h]) hc)

theorem mem_joinWith (sep c : Char) :
    ∀ (pieces : List JSString), c ∈ joinWith sep pieces →
      c = sep ∨ ∃ t, t ∈ pieces ∧ c ∈ t := by
  intro pieces
  induction pieces with
  | nil => intro h; simp [joinWith] at h
  | cons a rest ih =>
    intro h
    cases rest with
    | nil => exact Or.inr ⟨a, List.mem_cons_self _ _, h⟩
    | cons b rest2 =>
      unfold joinWith at h
      rcases List.mem_append.1 h with h1 | h1
      · exact Or.inr ⟨a, List.mem_cons_self _ _, h1⟩
      · rcases List.mem_cons.1 h1 with h2 | h2
        · exact Or.inl h2
        · rcases ih h2 with h3 | ⟨t, ht, hc⟩
          · exact Or.inl h3
          · exact Or.inr ⟨t, List.mem_cons_of_mem _ ht, hc⟩

theorem newline_not_mem_truncateRow (n : Nat) (row : JSString) (hr : newline ∉ row) :
    newline ∉ truncateRow n row := by
  intro h
  unfold truncateRow at h
  rcases mem_joinWith comma newline _ h with h1 | ⟨t, ht, hc⟩
  · exact absurd h1 (by decide)
  · exact hr (mem_of_mem_split comma newline row t (List.mem_of_mem_take ht) hc)

theorem not_blank_of_two_values (row : JSString) (h : 1 < (split comma row).length) :
    isBlankLine row = false := by
  have hc : comma ∈ row := by
    by_contra hn
    rw [split_of_not_mem comma row hn] at h
    simp at h
  cases hb : isBlankLine row with
  | false => rfl
  | true =>
    unfold isBlankLine at hb
    have := List.all_eq_true.1 hb comma hc
    exact absurd this (by decide)

theorem parseCSV_header_row (header row : JSString) (hh : newline ∉ header)
    (hr : newline ∉ row) (hb : isBlankLine row = false) :
    parseCSV (header ++ newline :: row) = .ok [recordOfRow (split comma header) row] := by
  rw [parseCSV_eq]
  simp [dataLines, headerTokens, linesOf_two header row hh hr, hb]

theorem parseCSV_header_blank_row (header row : JSString) (hh : newline ∉ header)
    (hr : newline ∉ row) (hb : isBlankLine row = true) :
    parseCSV (header ++ newline :: row) = .ok [] := by
  rw [parseCSV_eq]
  simp [dataLines, linesOf_two header row hh hr, hb]

end BudapestApp

namespace BudapestApp

/-! ## Day labels -/

theorem mem_stableDedup (l : List JSValue) (x : JSValue) :
    x ∈ stableDedup l ↔ x ∈ l := by
  induction l with
  | nil => simp [stableDedup]
  | cons a rest ih =>
    by_cases hx : x = a
    · simp [stableDedup, hx]
    · simp [stableDedup, hx, ih]

theorem nodup_stableDedup (l : List JSValue) : (stableDedup l).Nodup := by
  induction l with
  | nil => simp [stableDedup]
  | cons a rest ih =>
    unfold stableDedup
    refine List.nodup_cons.2 ⟨?_, ih.filter _⟩
    simp

theorem pairwise_stableDedup (l : List JSValue) :
    (stableDedup l).Pairwise (fun a b => l.indexOf a < l.indexOf b) := by
  induction l with
  | nil => simp [stableDedup]
  | cons x rest ih =>
    unfold stableDedup
    refine List.pairwise_cons.2 ⟨?_, ?_⟩
    · intro b hb
      have hbx : b ≠ x := by simpa using (List.mem_filter.1 hb).2
      rw [List.indexOf_cons_self, List.indexOf_cons_ne _ (Ne.symm hbx)]
      omega
    · have hf : ((stableDedup rest).filter (fun y => decide (y ≠ x))).Pairwise
          (fun a b => rest.indexOf a < rest.indexOf b) := ih.filter _
      refine hf.imp_of_mem ?_
      intro a b ha hb hab
      have hax : a ≠ x := by simpa using (List.mem_filter.1 ha).2
      have hbx : b ≠ x := by simpa using (List.mem_filter.1 hb).2
      rw [List.indexOf_cons_ne _ (Ne.symm hax), List.indexOf_cons_ne _ (Ne.symm hbx)]
      omega

theorem foldl_setAdd (l : List JSValue) :
    ∀ acc : List JSValue,
      l.foldl setAdd acc = acc ++ (stableDedup l).filter (fun y => decide (y ∉ acc)) := by
  induction l with
  | nil => intro acc; simp [stableDedup]
  | cons x rest ih =>
    intro acc
    have hsd : stableDedup (x :: rest) =
        x :: (stableDedup rest).filter (fun y => decide (y ≠ x)) := rfl
    rw [List.foldl_cons, ih, hsd]
    unfold setAdd
    by_cases hx : x ∈ acc
    · rw [if_pos hx, List.filter_cons, if_neg (by simpa using hx), List.filter_filter]
      congr 1
      apply List.filter_congr
      intro y _
      by_cases hy : y ∈ acc
      · simp [hy]
      · have hyx : y ≠ x := fun e => hy (e ▸ hx)
        simp [hy, hyx]
    · rw [if_neg hx, List.filter_cons, if_pos (by simpa using hx), List.filter_filter,
        List.append_assoc, List.singleton_append]
      congr 2
      apply List.filter_congr
      intro y _
      by_cases hy : y ∈ acc
      · simp [hy]
      · by_cases hyx : y = x
        · simp [hyx]
        · simp [hy, hyx]

theorem days_eq_stableDedup (itinerary : List JSObject) :
    days itinerary = stableDedup (dayLabels itinerary) := by
  unfold days dayLabels
  rw [foldl_setAdd]
  simp

/-! ## The day filter -/

theorem strictEq_iff (a b : JSValue) : strictEq a b = true ↔ a = b := by
  cases a <;> cases b <;> simp [strictEq]

theorem dayFilter_eq (itinerary : List JSObject) (d : JSValue) :
    dayFilter itinerary d = itinerary.filter (fun item => decide (getDia item = d)) := by
  unfold dayFilter
  apply List.filter_congr
  intro item _
  by_cases h : getDia item = d
  · simp [h, (strictEq_iff d d).2 rfl]
  · have : strictEq (getDia item) d = false := by
      cases hs : strictEq (getDia item) d with
      | false => rfl
      | true => exact absurd ((strictEq_iff _ _).1 hs) h
    simp [h, this]

theorem mem_dayFilter (itinerary : List JSObject) (d : JSValue) (r : JSObject) :
    r ∈ dayFilter itinerary d ↔ r ∈ itinerary ∧ getDia r = d := by
  rw [dayFilter_eq]
  simp

theorem sum_indicator_of_nodup (x : JSValue) :
    ∀ L : List JSValue, L.Nodup → x ∈ L →
      (L.map (fun d => if x = d then 1 else 0)).sum = 1 := by
  intro L
  induction L with
  | nil => intro _ h; simp at h
  | cons a rest ih =>
    intro hnd hx
    have hnd2 := List.nodup_cons.1 hnd
    by_cases hxa : x = a
    · subst hxa
      have hz : (rest.map (fun d => if x = d then 1 else 0)).sum = 0 := by
        apply List.sum_eq_zero
        intro n hn
        obtain ⟨d, hd, rfl⟩ := List.mem_map.1 hn
        have : x ≠ d := fun e => hnd2.1 (e ▸ hd)
        simp [this]
      simp [hz]
    · have hxr : x ∈ rest := by
        rcases List.mem_cons.1 hx with h | h
        · exact absurd h hxa
        · exact h
      simp [hxa, ih hnd2.2 hxr]

theorem sum_dayFilter_length (L : List JSValue) (hnd : L.Nodup) :
    ∀ itinerary : List JSObject, (∀ r ∈ itinerary, getDia r ∈ L) →
      (L.map (fun d => (dayFilter itinerary d).length)).sum = itinerary.length := by
  intro itinerary
  induction itinerary with
  | nil => intro _; simp [dayFilter]
  | cons r rest ih =>
    intro hmem
    have hstep : ∀ d, (dayFilter (r :: rest) d).length =
        (if getDia r = d then 1 else 0) + (dayFilter rest d).length := by
      intro d
      rw [dayFilter_eq, dayFilter_eq, List.filter_cons]
      by_cases h : getDia r = d
      · simp [h]; omega
      · simp [h]
    have hfun : (fun d => (dayFilter (r :: rest) d).length) =
        (fun d => (if getDia r = d then 1 else 0) + (dayFilter rest d).length) :=
      funext hstep
    rw [hfun, List.sum_map_add, ih (fun x hx => hmem x (List.mem_cons_of_mem _ hx)),
      sum_indicator_of_nodup (getDia r) L hnd (hmem r (List.mem_cons_self _ _))]
    simp [Nat.add_comm]

end BudapestApp

namespace BudapestApp

/-! ## The parser: records and fields -/

/-- C1: for every text, parseCSV returns exactly one record per line after the
first line that is not empty or whitespace-only, in source order: the record
list is the list of records built from the non-blank data lines, its length is
the number of such lines, and its k-th element is the record of the k-th such
line. -/
theorem parseCSV_one_record_per_data_line (text : JSString) :
    ∃ records, parseCSV text = .ok records ∧
      records = (dataLines text).map (recordOfRow (headerTokens text)) ∧
      records.length = (linesOf text).tail.countP (fun l => !isBlankLine l) ∧
      (∀ k : Nat, records[k]? = ((dataLines text)[k]?).map (recordOfRow (headerTokens text))) := by
  refine ⟨_, parseCSV_eq text, rfl, ?_, ?_⟩
  · simp [dataLines, List.countP_eq_length_filter]
  · intro k
    simp

/-- C2 fails as stated: with header `a,a` and row `1,2` the record has the one
field `a` holding `2`, so position 0 does not map its name to the value `1`;
with header `__proto__` the record has no field of that name at all. -/
theorem duplicate_header_last_value_wins :
    parseCSV "a,a\n1,2".toList = .ok [[("a".toList, "2".toList)]] ∧
    getOwn (recordOfRow (split comma "a,a".toList) "1,2".toList) "a".toList
      ≠ some (expectedCell (split comma "1,2".toList) 0) ∧
    getOwn (recordOfRow (split comma "__proto__".toList) "1".toList) "__proto__".toList
      = none ∧
    ¬ (∀ (header row : JSString) (i : Nat) (hi : i < (split comma header).length),
        isBlankLine row = false →
        getOwn (recordOfRow (split comma header) row) (trim (split comma header)[i])
          = some (expectedCell (split comma row) i)) := by
  refine ⟨rfl, by decide, rfl, ?_⟩
  intro h
  have h0 := h "a,a".toList "1,2".toList 0 (by decide) (by decide)
  revert h0
  decide

/-- C2, amended: for every text and every header position i whose trimmed name
is not `__proto__` and is not repeated at a later header position, every
record parseCSV returns maps that name to the trimmed i-th comma-separated
value of its row, and to the empty string when the row has fewer than i+1
values. -/
theorem parseCSV_field_value (text : JSString) (i : Nat)
    (hi : i < (headerTokens text).length)
    (hproto : trim (headerTokens text)[i] ≠ protoKey)
    (hlast : trim (headerTokens text)[i] ∉ ((headerTokens text).drop (i + 1)).map trim) :
    ∃ records, parseCSV text = .ok records ∧
      records.length = (dataLines text).length ∧
      ∀ k (hk : k < (dataLines text).length) (hr : k < records.length),
        getOwn records[k] (trim (headerTokens text)[i])
          = some (expectedCell (split comma (dataLines text)[k]) i) := by
  refine ⟨_, parseCSV_eq text, by simp, ?_⟩
  intro k hk hr
  rw [List.getElem_map]
  unfold recordOfRow buildEntry
  rw [getOwn_forEachHeader _ (headerTokens text) 0 [] i hi hproto ?_, cell_eq_expectedCell]
  · simp
  · intro j hj hij e
    apply hlast
    rw [← e]
    refine List.mem_map.2 ⟨(headerTokens text)[j], ?_, rfl⟩
    have hj2 : j - (i + 1) < ((headerTokens text).drop (i + 1)).length := by
      simp only [List.length_drop]; omega
    have hget : ((headerTokens text).drop (i + 1))[j - (i + 1)] = (headerTokens text)[j] := by
      rw [List.getElem_drop]
      congr 1; omega
    rw [← hget]
    exact List.getElem_mem _

/-- Witness for C2 (amended): header `a,b,c` with row `1,2`, at position 2. -/
theorem parseCSV_field_value_witness :
    ∃ records, parseCSV "a,b,c\n1,2".toList = .ok records ∧
      records.length = (dataLines "a,b,c\n1,2".toList).length ∧
      ∀ k (hk : k < (dataLines "a,b,c\n1,2".toList).length) (hr : k < records.length),
        getOwn records[k] (trim (headerTokens "a,b,c\n1,2".toList)[2])
          = some (expectedCell (split comma (dataLines "a,b,c\n1,2".toList)[k]) 2) :=
  parseCSV_field_value "a,b,c\n1,2".toList 2 (by decide) (by decide) (by decide)

/-- C3 fails as stated: with header `a` and row `,x` parseCSV builds the
record with field `a` empty, while the row truncated to its first value is the
empty line, which parseCSV skips, so no record is built from it. -/
theorem truncated_blank_row_is_skipped :
    parseCSV ("a".toList ++ newline :: ",x".toList) = .ok [[("a".toList, [])]] ∧
    truncateRow (split comma "a".toList).length ",x".toList = [] ∧
    parseCSV ("a".toList ++ newline ::
      truncateRow (split comma "a".toList).length ",x".toList) = .ok [] ∧
    ¬ (∀ (header row : JSString), newline ∉ header → newline ∉ row →
        (split comma header).length < (split comma row).length →
        parseCSV (header ++ newline :: row)
          = parseCSV (header ++ newline :: truncateRow (split comma header).length row)) := by
  have h1 : parseCSV ("a".toList ++ newline :: ",x".toList)
      = .ok [[("a".toList, [])]] := rfl
  have h2 : parseCSV ("a".toList ++ newline ::
      truncateRow (split comma "a".toList).length ",x".toList) = .ok [] := rfl
  refine ⟨h1, rfl, h2, ?_⟩
  intro h
  have h0 := h "a".toList ",x".toList (by decide) (by decide) (by decide)
  rw [h1, h2] at h0
  injection h0 with h0
  exact absurd h0 (by simp)

/-- C3, amended: for every header line with n names and every data row with
more than n comma-separated values, the row truncated to its first n values
has exactly n values and the one record parseCSV builds from the row is the
record built from its first n values alone, the extra trailing values being
discarded; it is identical to the record parseCSV builds from the truncated
row whenever the truncated row is not empty or whitespace-only, and when it is
parseCSV builds no record from the truncated row. -/
theorem parseCSV_extra_values_discarded (header row : JSString)
    (hh : newline ∉ header) (hr : newline ∉ row)
    (hmore : (split comma header).length < (split comma row).length) :
    (split comma (truncateRow (split comma header).length row)).length
      = (split comma header).length ∧
    parseCSV (header ++ newline :: row)
      = .ok [buildEntry (split comma header)
          ((split comma row).take (split comma header).length)] ∧
    (isBlankLine (truncateRow (split comma header).length row) = false →
      parseCSV (header ++ newline :: truncateRow (split comma header).length row)
        = parseCSV (header ++ newline :: row)) ∧
    (isBlankLine (truncateRow (split comma header).length row) = true →
      parseCSV (header ++ newline :: truncateRow (split comma header).length row)
        = .ok []) := by
  have hpos : 0 < (split comma header).length :=
    List.length_pos.2 (split_ne_nil comma header)
  have hnb : isBlankLine row = false := not_blank_of_two_values row (by omega)
  have hnl := newline_not_mem_truncateRow (split comma header).length row hr
  have hfull : parseCSV (header ++ newline :: row)
      = .ok [buildEntry (split comma header)
          ((split comma row).take (split comma header).length)] := by
    rw [parseCSV_header_row header row hh hr hnb]
    unfold recordOfRow
    rw [buildEntry_take]
  refine ⟨?_, hfull, ?_, ?_⟩
  · rw [split_truncateRow _ row hpos, List.length_take]
    omega
  · intro hb
    rw [hfull, parseCSV_header_row header _ hh hnl hb]
    unfold recordOfRow
    rw [split_truncateRow _ row hpos]
  · intro hb
    exact parseCSV_header_blank_row header _ hh hnl hb

/-- Witness for C3 (amended): header `a,b` with row `1,2,3`, whose truncation
`1,2` is not blank. -/
theorem parseCSV_extra_values_discarded_witness :
    parseCSV ("a,b".toList ++ newline :: "1,2,3".toList)
      = .ok [[("a".toList, "1".toList), ("b".toList, "2".toList)]] ∧
    truncateRow (split comma "a,b".toList).length "1,2,3".toList = "1,2".toList ∧
    parseCSV ("a,b".toList ++ newline ::
        truncateRow (split comma "a,b".toList).length "1,2,3".toList)
      = parseCSV ("a,b".toList ++ newline :: "1,2,3".toList) := by
  have h := parseCSV_extra_values_discarded "a,b".toList "1,2,3".toList
    (by decide) (by decide) (by decide)
  exact ⟨h.2.1, rfl, h.2.2.1 (by decide)⟩

/-- C4 fails as stated: with header `a,a` a record has the single field `a`,
with header `b,1` its fields are listed as `1`, `b`, and with header
`a,__proto__` it has the single field `a`. -/
theorem header_tokens_not_field_names :
    (parseCSV "a,a\n1,2".toList).toOption.map (List.map ownKeys) = some [["a".toList]] ∧
    (parseCSV "b,1\nx,y".toList).toOption.map (List.map ownKeys)
      = some [["1".toList, "b".toList]] ∧
    (parseCSV "a,__proto__\nx,y".toList).toOption.map (List.map ownKeys)
      = some [["a".toList]] ∧
    ¬ (∀ (text : JSString) (records : List JSObject), parseCSV text = .ok records →
        ∀ r ∈ records, ownKeys r = (headerTokens text).map trim) := by
  refine ⟨rfl, rfl, rfl, ?_⟩
  intro h
  have h0 := h "a,a\n1,2".toList [[("a".toList, "2".toList)]] rfl _ (List.mem_singleton.2 rfl)
  revert h0
  decide

/-- C4, amended: for every text, all records parseCSV returns have the same
field names in the same order, fixed by the first line alone and independent
of how many values a row had; when the trimmed tokens of the first line are
pairwise distinct, none is `__proto__` and none is an array index, the field
names in order are exactly those trimmed tokens. -/
theorem parseCSV_field_names (text : JSString) :
    ∃ records, parseCSV text = .ok records ∧
      (∀ r ∈ records, ownKeys r = ownKeys (buildEntry (headerTokens text) [])) ∧
      (((headerTokens text).map trim).Nodup →
        protoKey ∉ (headerTokens text).map trim →
        (∀ k ∈ (headerTokens text).map trim, arrayIndex? k = none) →
        ∀ r ∈ records, ownKeys r = (headerTokens text).map trim) := by
  refine ⟨_, parseCSV_eq text, ?_, ?_⟩
  · intro r hr
    obtain ⟨row, _, rfl⟩ := List.mem_map.1 hr
    exact ownKeys_buildEntry_values _ _ _
  · intro hnd hp hidx r hr
    obtain ⟨row, _, rfl⟩ := List.mem_map.1 hr
    exact ownKeys_buildEntry_plain _ _ hnd hp hidx

/-- Witness for C4 (amended): header `a,b,c` with rows `1,2` and `1,2,3,4`. -/
theorem parseCSV_field_names_witness :
    ∃ records, parseCSV "a,b,c\n1,2\n1,2,3,4".toList = .ok records ∧
      records.length = 2 ∧
      ∀ r ∈ records, ownKeys r = ["a".toList, "b".toList, "c".toList] := by
  obtain ⟨records, hp, _, h⟩ := parseCSV_field_names "a,b,c\n1,2\n1,2,3,4".toList
  refine ⟨records, hp, ?_, h (by decide) (by decide) (by decide)⟩
  have e : parseCSV "a,b,c\n1,2\n1,2,3,4".toList
      = .ok ((dataLines "a,b,c\n1,2\n1,2,3,4".toList).map
          (recordOfRow (headerTokens "a,b,c\n1,2\n1,2,3,4".toList))) := parseCSV_eq _
  rw [hp] at e
  injection e with e
  rw [e]
  rfl

end BudapestApp

namespace BudapestApp

/-! ## Day labels, the day filter and the partition by day -/

/-- C5: for every record sequence, `days` is the stable deduplication of the
records' day labels: it has no duplicates, its members are exactly the labels
of the records (so every record's label is a member), and its labels are
ordered by the position of their first occurrence, not sorted: the day
sequence B, A, A, B gives B, A. -/
theorem days_stable_dedup (itinerary : List JSObject) :
    days itinerary = stableDedup (dayLabels itinerary) ∧
    (days itinerary).Nodup ∧
    (∀ d, d ∈ days itinerary ↔ ∃ r, r ∈ itinerary ∧ getDia r = d) ∧
    (∀ r, r ∈ itinerary → getDia r ∈ days itinerary) ∧
    (days itinerary).Pairwise
      (fun a b => (dayLabels itinerary).indexOf a < (dayLabels itinerary).indexOf b) ∧
    days [[(Dia, "B".toList)], [(Dia, "A".toList)], [(Dia, "A".toList)], [(Dia, "B".toList)]]
      = [.str "B".toList, .str "A".toList] := by
  have hmem : ∀ d, d ∈ days itinerary ↔ ∃ r, r ∈ itinerary ∧ getDia r = d := by
    intro d
    rw [days_eq_stableDedup, mem_stableDedup]
    simp [dayLabels]
  refine ⟨days_eq_stableDedup itinerary, ?_, hmem, ?_, ?_, by decide⟩
  · rw [days_eq_stableDedup]
    exact nodup_stableDedup _
  · intro r hr
    exact (hmem _).2 ⟨r, hr, rfl⟩
  · rw [days_eq_stableDedup]
    exact pairwise_stableDedup _

/-- Witness for C5: four records with days B, A, A, B and one without a day. -/
theorem days_stable_dedup_witness :
    getDia [(Dia, "A".toList)] ∈
      days [[(Dia, "B".toList)], [(Dia, "A".toList)], [(Dia, "A".toList)],
        [(Dia, "B".toList)], []] :=
  (days_stable_dedup [[(Dia, "B".toList)], [(Dia, "A".toList)], [(Dia, "A".toList)],
    [(Dia, "B".toList)], []]).2.2.2.1 [(Dia, "A".toList)] (by decide)

/-- C6: for every record sequence and every selected day label d, the day
filter returns exactly the records whose `Día` field equals d, in their
original relative order: it is a subsequence of the input, its members are the
records with that label, and it is empty when no record has the label. String
equality is exact: labels that differ in case do not match. -/
theorem dayFilter_exact (itinerary : List JSObject) (d : JSValue) :
    dayFilter itinerary d = itinerary.filter (fun r => decide (getDia r = d)) ∧
    (dayFilter itinerary d).Sublist itinerary ∧
    (∀ r, r ∈ dayFilter itinerary d ↔ r ∈ itinerary ∧ getDia r = d) ∧
    ((∀ r, r ∈ itinerary → getDia r ≠ d) → dayFilter itinerary d = []) ∧
    strictEq (.str "domingo".toList) (.str "Domingo".toList) = false := by
  refine ⟨dayFilter_eq itinerary d, List.filter_sublist _, mem_dayFilter itinerary d,
    ?_, by decide⟩
  intro h
  rw [dayFilter_eq, List.filter_eq_nil_iff]
  intro r hr
  simpa using h r hr

/-- Witness for C6: records with days A, B, A filtered by A, and by the absent
label C. -/
theorem dayFilter_exact_witness :
    dayFilter [[(Dia, "A".toList), ("n".toList, "1".toList)], [(Dia, "B".toList)],
        [(Dia, "A".toList), ("n".toList, "2".toList)]] (.str "A".toList)
      = [[(Dia, "A".toList), ("n".toList, "1".toList)],
         [(Dia, "A".toList), ("n".toList, "2".toList)]] ∧
    dayFilter [[(Dia, "A".toList), ("n".toList, "1".toList)], [(Dia, "B".toList)],
        [(Dia, "A".toList), ("n".toList, "2".toList)]] (.str "C".toList) = [] :=
  ⟨by decide,
   (dayFilter_exact [[(Dia, "A".toList), ("n".toList, "1".toList)], [(Dia, "B".toList)],
      [(Dia, "A".toList), ("n".toList, "2".toList)]] (.str "C".toList)).2.2.2.1 (by decide)⟩

/-- C10: for every record sequence, the day filters over the labels of `days`
partition the records: every record is returned by the filter of exactly one
label of `days`, the lengths of the filtered subsequences sum to the number of
records, and no label of `days` has an empty filtered subsequence. -/
theorem dayFilter_partition (itinerary : List JSObject) :
    (∀ r, r ∈ itinerary → ∃! d, d ∈ days itinerary ∧ r ∈ dayFilter itinerary d) ∧
    ((days itinerary).map (fun d => (dayFilter itinerary d).length)).sum
      = itinerary.length ∧
    (∀ d, d ∈ days itinerary → dayFilter itinerary d ≠ []) := by
  have hmem : ∀ d, d ∈ days itinerary ↔ ∃ r, r ∈ itinerary ∧ getDia r = d := by
    intro d
    rw [days_eq_stableDedup, mem_stableDedup]
    simp [dayLabels]
  have hnd : (days itinerary).Nodup := by
    rw [days_eq_stableDedup]
    exact nodup_stableDedup _
  refine ⟨?_, ?_, ?_⟩
  · intro r hr
    refine ⟨getDia r, ⟨(hmem _).2 ⟨r, hr, rfl⟩, (mem_dayFilter _ _ _).2 ⟨hr, rfl⟩⟩, ?_⟩
    intro d hd
    exact ((mem_dayFilter _ _ _).1 hd.2).2.symm
  · exact sum_dayFilter_length _ hnd itinerary (fun r hr => (hmem _).2 ⟨r, hr, rfl⟩)
  · intro d hd
    obtain ⟨r, hr, hrd⟩ := (hmem d).1 hd
    exact List.ne_nil_of_mem ((mem_dayFilter _ _ _).2 ⟨hr, hrd⟩)

/-- Witness for C10: records with days B, A, A and one record without a day. -/
theorem dayFilter_partition_witness :
    (∃! d, d ∈ days [[(Dia, "B".toList)], [(Dia, "A".toList)], [(Dia, "A".toList)], []] ∧
      [(Dia, "A".toList)] ∈
        dayFilter [[(Dia, "B".toList)], [(Dia, "A".toList)], [(Dia, "A".toList)], []] d) ∧
    dayFilter [[(Dia, "B".toList)], [(Dia, "A".toList)], [(Dia, "A".toList)], []]
      .undefined ≠ [] :=
  ⟨(dayFilter_partition [[(Dia, "B".toList)], [(Dia, "A".toList)], [(Dia, "A".toList)],
      []]).1 [(Dia, "A".toList)] (by decide),
   (dayFilter_partition [[(Dia, "B".toList)], [(Dia, "A".toList)], [(Dia, "A".toList)],
      []]).2.2 .undefined (by decide)⟩

end BudapestApp

namespace BudapestApp

/-! ## Totality of the parser and the load step -/

/-- C8: parseCSV raises no error for any string: the first line `rows[0]` is
always defined and a record list is always returned. The empty string, a text
without a line break (a header line alone) and such a text followed by one
line break give the empty record list, whose day-label list is empty. -/
theorem parseCSV_never_throws (text : JSString) :
    (∃ row0, (split newline text)[0]? = some row0) ∧
    (∃ records, parseCSV text = .ok records) ∧
    parseCSV [] = .ok [] ∧
    (newline ∉ text → parseCSV text = .ok [] ∧ parseCSV (text ++ [newline]) = .ok []) ∧
    days [] = [] := by
  refine ⟨?_, ⟨_, parseCSV_eq text⟩, rfl, ?_, rfl⟩
  · cases hs : split newline text with
    | nil => exact absurd hs (split_ne_nil _ _)
    | cons row0 rest => exact ⟨row0, List.getElem?_cons_zero⟩
  · intro h
    constructor
    · rw [parseCSV_eq]
      simp [dataLines, linesOf, split_of_not_mem newline text h]
    · rw [parseCSV_eq]
      have h2 : linesOf (text ++ [newline]) = [text, []] := linesOf_two text [] h (by simp)
      simp [dataLines, h2, isBlankLine]

/-- Witness for C8: the header line `Día,Hora` alone. -/
theorem parseCSV_never_throws_witness :
    parseCSV (Dia ++ ",Hora".toList) = .ok [] ∧
    parseCSV ((Dia ++ ",Hora".toList) ++ [newline]) = .ok [] :=
  (parseCSV_never_throws (Dia ++ ",Hora".toList)).2.2.2.1 (by decide)

/-- C7 fails as stated: after loading the text with header `Día,Hora` and the
one row `Lunes,10:00` the day-label list is non-empty with first label
`Lunes`, while the selected day is still `Domingo`. -/
theorem activeDay_not_first_day :
    ∃ records, parseCSV (Dia ++ ",Hora\nLunes,10:00".toList) = .ok records ∧
      (loadData (.ok (Dia ++ ",Hora\nLunes,10:00".toList)) initialState).itinerary
        = records ∧
      (loadData (.ok (Dia ++ ",Hora\nLunes,10:00".toList)) initialState).error = none ∧
      (days records).head? = some (.str "Lunes".toList) ∧
      (loadData (.ok (Dia ++ ",Hora\nLunes,10:00".toList)) initialState).activeDay
        = .str "Domingo".toList ∧
      some (loadData (.ok (Dia ++ ",Hora\nLunes,10:00".toList)) initialState).activeDay
        ≠ (days records).head? :=
  ⟨[[(Dia, "Lunes".toList), ("Hora".toList, "10:00".toList)]], rfl, rfl, rfl, by decide,
    rfl, by decide⟩

/-- C7, amended: after the load step, whatever its outcome and whatever the
records, the selected day before any user selection is the fixed default
`Domingo`. -/
theorem activeDay_after_load (outcome : Except JSError JSString) :
    initialState.activeDay = .str "Domingo".toList ∧
    (loadData outcome initialState).activeDay = .str "Domingo".toList := by
  refine ⟨rfl, ?_⟩
  unfold loadData
  cases outcome >>= parseCSV <;> rfl

/-- C9: from the initial view state (no records, `Domingo`, loading, no
error), for every outcome of the read, after loadData `loading` is false; if
the read fails, whatever the cause, `error` is the fixed message and
`itinerary` is still empty; if the read gives a string, `error` is still null
and `itinerary` is the parse of that string. -/
theorem loadData_outcome (outcome : Except JSError JSString) :
    initialState = { itinerary := [], activeDay := .str "Domingo".toList,
                     loading := true, error := none } ∧
    loadErrorMessage = "No se pudo cargar el itinerario".toList ∧
    (loadData outcome initialState).loading = false ∧
    (∀ cause, outcome = .error cause →
      (loadData outcome initialState).error = some loadErrorMessage ∧
      (loadData outcome initialState).itinerary = []) ∧
    (∀ csvData, outcome = .ok csvData →
      (loadData outcome initialState).error = none ∧
      parseCSV csvData = .ok (loadData outcome initialState).itinerary) := by
  refine ⟨rfl, rfl, rfl, ?_, ?_⟩
  · intro cause h
    subst h
    exact ⟨rfl, rfl⟩
  · intro csvData h
    subst h
    have hp := parseCSV_eq csvData
    have hb : (Except.ok csvData >>= parseCSV) = parseCSV csvData := rfl
    unfold loadData
    rw [hb, hp]
    exact ⟨rfl, rfl⟩

/-- Witness for C9: a rejected read, and a read that gives header `Día` with
the row `Lunes`. -/
theorem loadData_outcome_witness :
    ((loadData (.error (.rejected "ENOENT".toList)) initialState).error
        = some loadErrorMessage ∧
      (loadData (.error (.rejected "ENOENT".toList)) initialState).itinerary = []) ∧
    ((loadData (.ok (Dia ++ "\nLunes".toList)) initialState).error = none ∧
      parseCSV (Dia ++ "\nLunes".toList)
        = .ok (loadData (.ok (Dia ++ "\nLunes".toList)) initialState).itinerary) :=
  ⟨(loadData_outcome (.error (.rejected "ENOENT".toList))).2.2.2.1 _ rfl,
   (loadData_outcome (.ok (Dia ++ "\nLunes".toList))).2.2.2.2 _ rfl⟩

end BudapestApp
